import Mathlib

/-!
Shallow embedding of the core of the `m-as` terminal resource monitor
(sources: `src/cpu.rs`, `src/memory.rs`, `src/process.rs`, `src/tui.rs`).

Modelling conventions:
- Rust `usize`/`u64` values are embedded as `Nat`; Rust's `saturating_sub`
  coincides with truncated `Nat` subtraction, and the guarded plain
  subtractions in the source are only evaluated where the guard rules out
  underflow, so truncated subtraction is faithful there as well.
- `f32`/`f64` sample values (usage percentages, memory megabytes) are
  embedded as `ℚ`; the claims under study are about which formula is
  computed, not about floating-point rounding.
- OS counter reads performed through the `sysinfo` crate (an external
  collaborator per the design document) are passed in as explicit reading
  parameters to the `update` functions.
- `VecDeque<f32>` histories are embedded as `List ℚ` with the head as the
  front (oldest element): `push_back` appends on the right, `pop_front`
  drops the head.
-/

/-- Rolling-history push, the pattern shared by every history buffer in the
program (`cpu.rs` lines 89-92 and 98-101, `memory.rs` lines 64-72):
`push_back(v)` followed by `if len() > 60 { pop_front() }`. -/
def histPush {α : Type} (h : List α) (v : α) : List α :=
  if (h ++ [v]).length > 60 then (h ++ [v]).tail else h ++ [v]

lemma histPush_getLast? {α : Type} (h : List α) (v : α) :
    (histPush h v).getLast? = some v := by
  unfold histPush
  split
  · rename_i hgt
    cases h with
    | nil => simp at hgt
    | cons a as => simp [List.getLast?_concat]
  · exact List.getLast?_concat _

lemma histPush_length {α : Type} (h : List α) (v : α) (hh : h.length ≤ 60) :
    (histPush h v).length = min (h.length + 1) 60 := by
  unfold histPush
  split
  · rename_i hgt
    simp only [List.length_append, List.length_singleton] at hgt
    simp only [List.length_tail, List.length_append, List.length_singleton]
    omega
  · rename_i hle
    simp only [List.length_append, List.length_singleton] at hle ⊢
    omega

/-- Folding `histPush` over a stream of pushes keeps exactly the most recent
60 values, in age order. -/
lemma foldl_histPush {α : Type} (xs : List α) : ∀ acc : List α,
    acc.length ≤ 60 →
    List.foldl histPush acc xs = (acc ++ xs).drop (acc.length + xs.length - 60) := by
  induction xs with
  | nil =>
    intro acc hacc
    have h0 : acc.length - 60 = 0 := by omega
    simp only [List.foldl_nil, List.append_nil, List.length_nil, Nat.add_zero,
      h0, List.drop_zero]
  | cons x xs ih =>
    intro acc hacc
    rw [List.foldl_cons]
    by_cases h60 : acc.length = 60
    · cases acc with
      | nil => simp at h60
      | cons a as =>
        have has : as.length = 59 := by
          simp only [List.length_cons] at h60
          omega
        have hpush : histPush (a :: as) x = as ++ [x] := by
          unfold histPush
          rw [if_pos (by
            simp only [List.cons_append, List.length_cons, List.length_append,
              List.length_singleton]
            omega)]
          simp
        rw [hpush, ih _ (by
          simp only [List.length_append, List.length_singleton]
          omega)]
        have h1 : (as ++ [x]).length + xs.length - 60 = xs.length := by
          simp only [List.length_append, List.length_singleton, has]
          omega
        have h2 : (a :: as).length + (x :: xs).length - 60 = xs.length + 1 := by
          simp only [List.length_cons, has]
          omega
        rw [h1, h2]
        simp [List.cons_append, List.append_assoc, List.singleton_append,
          List.drop_succ_cons]
    · have hpush : histPush acc x = acc ++ [x] := by
        unfold histPush
        rw [if_neg (by
          simp only [List.length_append, List.length_singleton]
          omega)]
      rw [hpush, ih _ (by
        simp only [List.length_append, List.length_singleton]
        omega)]
      have hlen : (acc ++ [x]).length + xs.length - 60
          = acc.length + (x :: xs).length - 60 := by
        simp only [List.length_append, List.length_singleton, List.length_cons,
          List.length_nil]
        omega
      rw [hlen, List.append_assoc]
      simp

/-- C3: for every sequence of N pushes into a capacity-60 rolling history
(the pattern used by the global CPU history, each per-core history, and the
memory and swap histories), the resulting length is `min N 60`, the retained
values are the last 60 pushed ones in unchanged age order, and when `N > 60`
the oldest retained value is the `(N-59)`-th pushed value (0-based index
`N - 60`). -/
theorem ringHistory_push_c3 {α : Type} (xs : List α) :
    (List.foldl histPush ([] : List α) xs).length = min xs.length 60 ∧
    List.foldl histPush ([] : List α) xs = xs.drop (xs.length - 60) ∧
    (60 < xs.length →
      (List.foldl histPush ([] : List α) xs).head? = xs[xs.length - 60]?) := by
  have h := foldl_histPush xs [] (by simp)
  simp only [List.nil_append, List.length_nil, Nat.zero_add] at h
  refine ⟨?_, h, ?_⟩
  · rw [h, List.length_drop]
    omega
  · intro hgt
    rw [h, List.head?_drop]

theorem ringHistory_push_c3_witness :
    60 < (List.range 62).length ∧
    (List.foldl histPush ([] : List Nat) (List.range 62)).head? = (List.range 62)[62 - 60]? := by
  refine ⟨by decide, ?_⟩
  have h := (ringHistory_push_c3 (List.range 62)).2.2 (by decide)
  simpa using h

/-- The selection/scroll cursor of the process table: the `selected_process`
and `scroll_offset` fields of `AppState` (`tui.rs` lines 30-31). -/
structure Cursor where
  selected : Nat
  scroll_offset : Nat
deriving DecidableEq

/-- MoveDown key transition (`tui.rs` lines 101-109): if
`selected_process < processes.len().saturating_sub(1)` increment it; then if
`selected_process >= scroll_offset + visible_height` set
`scroll_offset = selected_process - visible_height + 1`. -/
def moveDown (len height : Nat) (c : Cursor) : Cursor :=
  let sel := if c.selected < len - 1 then c.selected + 1 else c.selected
  { selected := sel
    scroll_offset :=
      if sel ≥ c.scroll_offset + height then sel - height + 1 else c.scroll_offset }

/-- MoveUp key transition (`tui.rs` lines 110-118): if `selected_process > 0`
decrement it; then if `selected_process < scroll_offset` set
`scroll_offset = selected_process`. -/
def moveUp (c : Cursor) : Cursor :=
  let sel := if c.selected > 0 then c.selected - 1 else c.selected
  { selected := sel
    scroll_offset := if sel < c.scroll_offset then sel else c.scroll_offset }

/-- MoveDown as written in the design document's state machine:
`selected = min(selected+1, length-1)`, then the scroll adjustment. -/
def specMoveDown (len height : Nat) (c : Cursor) : Cursor :=
  let sel := min (c.selected + 1) (len - 1)
  { selected := sel
    scroll_offset :=
      if sel ≥ c.scroll_offset + height then sel - height + 1 else c.scroll_offset }

/-- MoveUp as written in the design document's state machine:
`selected = selected.saturating_sub(1)`, then the scroll adjustment. -/
def specMoveUp (c : Cursor) : Cursor :=
  let sel := c.selected - 1
  { selected := sel
    scroll_offset := if sel < c.scroll_offset then sel else c.scroll_offset }

/-- C2: on the state machine's state space (selection inside `[0, len-1]`),
the coded MoveDown transition equals the specified
`selected = min(selected+1, length-1)` rule and the coded MoveUp transition
equals the specified `selected = selected.saturating_sub(1)` rule, with the
stated scroll adjustments; and from (selected=0, scroll=0, length=10,
height=5), five MoveDown steps give (5, 1) and a further MoveUp gives
(4, 1). -/
theorem cursor_moves_c2 :
    (∀ (len height : Nat) (c : Cursor), c.selected ≤ len - 1 →
        moveDown len height c = specMoveDown len height c) ∧
    (∀ c : Cursor, moveUp c = specMoveUp c) ∧
    moveDown 10 5 (moveDown 10 5 (moveDown 10 5 (moveDown 10 5 (moveDown 10 5 ⟨0, 0⟩))))
      = ⟨5, 1⟩ ∧
    moveUp ⟨5, 1⟩ = ⟨4, 1⟩ := by
  refine ⟨?_, ?_, by decide, by decide⟩
  · intro len height c h
    by_cases hlt : c.selected < len - 1
    · have hmin : min (c.selected + 1) (len - 1) = c.selected + 1 := by omega
      simp [moveDown, specMoveDown, hlt, hmin]
    · have hmin : min (c.selected + 1) (len - 1) = c.selected := by omega
      simp [moveDown, specMoveDown, hlt, hmin]
  · intro c
    by_cases h0 : c.selected > 0
    · simp [moveUp, specMoveUp, h0]
    · have hz : c.selected = 0 := by omega
      simp [moveUp, specMoveUp, h0, hz]

theorem cursor_moves_c2_witness :
    ((⟨2, 0⟩ : Cursor).selected ≤ 10 - 1 ∧
      moveDown 10 5 ⟨2, 0⟩ = specMoveDown 10 5 ⟨2, 0⟩) ∧
    moveUp ⟨3, 2⟩ = specMoveUp ⟨3, 2⟩ :=
  ⟨⟨by decide, cursor_moves_c2.1 10 5 ⟨2, 0⟩ (by decide)⟩,
    cursor_moves_c2.2.1 ⟨3, 2⟩⟩

/-- C10 counterexample: when `visible_height = 0` (a terminal exactly 4 rows
high makes `visible_height = height - 4 = 0` in `tui.rs` line 94), a MoveDown
on an empty process list from (selected=0, scroll_offset=0) moves
`scroll_offset` to 1, so the cursor does not stay at (0, 0). -/
theorem moveDown_empty_c10_counterexample :
    moveDown 0 0 ⟨0, 0⟩ = ⟨0, 1⟩ ∧ moveDown 0 0 ⟨0, 0⟩ ≠ ⟨0, 0⟩ := by decide

/-- C10 (amended): when the process list is empty and `visible_height ≥ 1`,
MoveDown and MoveUp from (selected=0, scroll_offset=0) leave the cursor at
(0, 0): the guards prevent any change. -/
theorem move_empty_unchanged_c10 (height : Nat) (h : 1 ≤ height) :
    moveDown 0 height ⟨0, 0⟩ = ⟨0, 0⟩ ∧ moveUp ⟨0, 0⟩ = ⟨0, 0⟩ := by
  constructor
  · have h1 : ¬ ((0 : Nat) < 0 - 1) := by omega
    have h2 : ¬ ((0 : Nat) ≥ 0 + height) := by omega
    have h3 : height ≠ 0 := by omega
    simp [moveDown, h1, h2, h3]
  · decide

theorem move_empty_unchanged_c10_witness :
    1 ≤ 5 ∧ (moveDown 0 5 ⟨0, 0⟩ = ⟨0, 0⟩ ∧ moveUp ⟨0, 0⟩ = ⟨0, 0⟩) :=
  ⟨by decide, move_empty_unchanged_c10 5 (by decide)⟩

/-- Process status subset distinguished by the program (`process.rs` lines
30-38, `tui.rs` lines 416-424); any other sysinfo status is shown as
"Unknown". -/
inductive ProcStatus where
  | running
  | sleeping
  | idle
  | zombie
  | dead
  | stopped
  | unknown
deriving DecidableEq

/-- One row of the process table (`process.rs` lines 18-26). -/
structure Process where
  pid : Nat
  name : String
  cpu_usage : ℚ
  memory_mb : ℚ
  status : ProcStatus
  parent_pid : Option Nat
deriving DecidableEq

/-- One insertion step of the stable memory-descending sort: the new element
is placed in front of the first element whose memory is no larger than its
own, hence after every strictly-larger element and before later equal ones
(stability). -/
def insertByMemory (p : Process) : List Process → List Process
  | [] => [p]
  | q :: qs =>
      if q.memory_mb ≤ p.memory_mb then p :: q :: qs else q :: insertByMemory p qs

/-- `sort_by_memory` (`process.rs` lines 82-88): Rust's `slice::sort_by` is a
stable sort; with the comparator `b.memory_mb` compared against
`a.memory_mb` it sorts memory-descending. A stable sort for a total preorder
is a unique function, modelled here by stable insertion sort over `ℚ`. -/
def sort_by_memory : List Process → List Process
  | [] => []
  | p :: ps => insertByMemory p (sort_by_memory ps)

lemma mem_insertByMemory (x p : Process) (l : List Process) :
    x ∈ insertByMemory p l → x = p ∨ x ∈ l := by
  induction l with
  | nil =>
    intro hx
    simp only [insertByMemory, List.mem_singleton] at hx
    exact Or.inl hx
  | cons q qs ih =>
    intro hx
    simp only [insertByMemory] at hx
    by_cases hc : q.memory_mb ≤ p.memory_mb
    · simp only [if_pos hc, List.mem_cons] at hx
      simp only [List.mem_cons]
      tauto
    · simp only [if_neg hc, List.mem_cons] at hx
      simp only [List.mem_cons]
      rcases hx with h | h
      · exact Or.inr (Or.inl h)
      · rcases ih h with h' | h'
        · exact Or.inl h'
        · exact Or.inr (Or.inr h')

lemma sorted_insertByMemory (p : Process) (l : List Process)
    (hl : List.Sorted (fun a b => b.memory_mb ≤ a.memory_mb) l) :
    List.Sorted (fun a b => b.memory_mb ≤ a.memory_mb) (insertByMemory p l) := by
  induction l with
  | nil => simp [insertByMemory]
  | cons q qs ih =>
    rw [List.sorted_cons] at hl
    simp only [insertByMemory]
    by_cases hc : q.memory_mb ≤ p.memory_mb
    · rw [if_pos hc, List.sorted_cons]
      refine ⟨?_, ?_⟩
      · intro b hb
        rcases List.mem_cons.mp hb with h | h
        · subst h
          exact hc
        · exact le_trans (hl.1 b h) hc
      · rw [List.sorted_cons]
        exact hl
    · rw [if_neg hc, List.sorted_cons]
      refine ⟨?_, ih hl.2⟩
      intro b hb
      rcases mem_insertByMemory b p qs hb with h | h
      · subst h
        exact le_of_lt (lt_of_not_le hc)
      · exact hl.1 b h

lemma sorted_sort_by_memory (l : List Process) :
    List.Sorted (fun a b => b.memory_mb ≤ a.memory_mb) (sort_by_memory l) := by
  induction l with
  | nil => simp [sort_by_memory]
  | cons p ps ih => exact sorted_insertByMemory p (sort_by_memory ps) ih

/-- C6: after the default refresh sort `sort_by_memory` (stable, memory
descending), the result is pairwise ordered: for all indices `i < j`,
`result[i].memory_mb >= result[j].memory_mb`. -/
theorem sort_by_memory_desc_c6 (l : List Process) (i j : Nat)
    (hj : j < (sort_by_memory l).length) (hij : i < j) :
    ((sort_by_memory l).get ⟨j, hj⟩).memory_mb ≤
      ((sort_by_memory l).get ⟨i, by omega⟩).memory_mb :=
  (sorted_sort_by_memory l).rel_get_of_lt (Fin.mk_lt_mk.mpr hij)

theorem sort_by_memory_desc_c6_witness :
    (1 < (sort_by_memory
        [⟨1, "a", 0, 1, ProcStatus.running, none⟩,
         ⟨2, "b", 0, 5, ProcStatus.sleeping, none⟩,
         ⟨3, "c", 0, 3, ProcStatus.idle, some 1⟩]).length ∧ (0 : Nat) < 1) ∧
    ((sort_by_memory
        [⟨1, "a", 0, 1, ProcStatus.running, none⟩,
         ⟨2, "b", 0, 5, ProcStatus.sleeping, none⟩,
         ⟨3, "c", 0, 3, ProcStatus.idle, some 1⟩]).get ⟨1, by decide⟩).memory_mb ≤
      ((sort_by_memory
        [⟨1, "a", 0, 1, ProcStatus.running, none⟩,
         ⟨2, "b", 0, 5, ProcStatus.sleeping, none⟩,
         ⟨3, "c", 0, 3, ProcStatus.idle, some 1⟩]).get ⟨0, by decide⟩).memory_mb :=
  ⟨⟨by decide, by decide⟩,
    sort_by_memory_desc_c6
      [⟨1, "a", 0, 1, ProcStatus.running, none⟩,
       ⟨2, "b", 0, 5, ProcStatus.sleeping, none⟩,
       ⟨3, "c", 0, 3, ProcStatus.idle, some 1⟩] 0 1 (by decide) (by decide)⟩

/-- One CPU core's metrics (`cpu.rs` lines 18-23). -/
structure CpuCore where
  name : String
  usage : ℚ
  history : List ℚ
deriving DecidableEq

/-- Aggregated CPU metrics (`cpu.rs` lines 36-41). -/
structure CpuInfo where
  global_usage : ℚ
  cores : List CpuCore
  history : List ℚ
deriving DecidableEq

/-- One whole-snapshot read of the OS CPU counters through sysinfo
(`system.global_cpu_usage()` and `cpu.cpu_usage()` per core), the external
snapshot source of the design document. -/
structure CpuReading where
  global : ℚ
  perCore : List ℚ
deriving DecidableEq

/-- Per-core update step (`cpu.rs` lines 96-102): store the read usage and
push it onto that core's history. -/
def CpuCore.updateWith (c : CpuCore) (v : ℚ) : CpuCore :=
  { c with usage := v, history := histPush c.history v }

/-- The loop of `cpu.rs` lines 95-103: for each index of the fresh reading,
the core at that index (when one exists) is updated in place; cores beyond
the reading keep their old state, readings beyond the core list are
dropped. -/
def updateCores : List CpuCore → List ℚ → List CpuCore
  | cs, [] => cs
  | [], _ :: _ => []
  | c :: cs, v :: vs => c.updateWith v :: updateCores cs vs

/-- `CpuInfo::update` (`cpu.rs` lines 80-104) with the OS read abstracted
into a `CpuReading`: sets `global_usage` to the read global value, pushes it
onto the global history, and updates each core from the per-core reads. -/
def CpuInfo.update (ci : CpuInfo) (r : CpuReading) : CpuInfo :=
  { global_usage := r.global
    history := histPush ci.history r.global
    cores := updateCores ci.cores r.perCore }

lemma updateCores_get? (cs : List CpuCore) (vs : List ℚ) (i : Nat) (v : ℚ)
    (c : CpuCore) (hv : vs.get? i = some v) (hc : cs.get? i = some c) :
    (updateCores cs vs).get? i = some (c.updateWith v) := by
  induction cs generalizing vs i with
  | nil => simp at hc
  | cons c0 cs ih =>
    cases vs with
    | nil => simp at hv
    | cons v0 vs =>
      cases i with
      | zero =>
        simp only [List.get?_cons_zero, Option.some.injEq] at hv hc
        simp [updateCores, hv, hc]
      | succ n =>
        simp only [List.get?_cons_succ] at hv hc
        simpa [updateCores] using ih vs n hv hc

/-- C7 counterexample: `CpuInfo::update` performs no clamping — a raw
global reading of 150 is pushed onto the global history as 150, outside
[0, 100]; the per-core reading 150 is likewise stored raw. -/
theorem cpu_no_clamp_c7_counterexample :
    ((CpuInfo.update ⟨0, [⟨"Core 1", 0, []⟩], []⟩ ⟨150, [150]⟩).history.getLast?
        = some 150) ∧
    ((CpuInfo.update ⟨0, [⟨"Core 1", 0, []⟩], []⟩ ⟨150, [150]⟩).cores.get? 0
        = some ⟨"Core 1", 150, [150]⟩) ∧
    ¬ ((150 : ℚ) ≤ 100) := by
  refine ⟨?_, ?_, by decide⟩
  · simp [CpuInfo.update, histPush]
  · simp [CpuInfo.update, updateCores, CpuCore.updateWith, histPush]

/-- C7 (amended): every value `CpuInfo::update` appends to the global and
per-core histories is exactly the raw usage value of the reading, unchanged
— no clamping is applied — so the pushed values lie in [0, 100] exactly when
the raw readings do. -/
theorem cpu_push_raw_c7 (ci : CpuInfo) (r : CpuReading) :
    (ci.update r).history.getLast? = some r.global ∧
    (∀ (i : Nat) (v : ℚ) (c : CpuCore), r.perCore.get? i = some v →
      ci.cores.get? i = some c →
        (ci.update r).cores.get? i = some (c.updateWith v) ∧
        (c.updateWith v).history.getLast? = some v) ∧
    ((0 ≤ r.global ∧ r.global ≤ 100) ↔
      (∀ v : ℚ, (ci.update r).history.getLast? = some v → 0 ≤ v ∧ v ≤ 100)) := by
  have hg : (ci.update r).history.getLast? = some r.global :=
    histPush_getLast? ci.history r.global
  refine ⟨hg, ?_, ?_⟩
  · intro i v c hv hc
    exact ⟨updateCores_get? ci.cores r.perCore i v c hv hc,
      histPush_getLast? c.history v⟩
  · constructor
    · intro hb v hv
      rw [hg] at hv
      cases hv
      exact hb
    · intro hall
      exact hall r.global hg

theorem cpu_push_raw_c7_witness :
    ((⟨42, [55]⟩ : CpuReading).perCore.get? 0 = some 55 ∧
      (⟨0, [⟨"Core 1", 0, []⟩], []⟩ : CpuInfo).cores.get? 0 = some ⟨"Core 1", 0, []⟩) ∧
    ((CpuInfo.update ⟨0, [⟨"Core 1", 0, []⟩], []⟩ ⟨42, [55]⟩).cores.get? 0
        = some (CpuCore.updateWith ⟨"Core 1", 0, []⟩ 55) ∧
      (CpuCore.updateWith ⟨"Core 1", 0, []⟩ 55).history.getLast? = some 55) :=
  ⟨⟨by decide, by decide⟩,
    (cpu_push_raw_c7 ⟨0, [⟨"Core 1", 0, []⟩], []⟩ ⟨42, [55]⟩).2.1 0 55
      ⟨"Core 1", 0, []⟩ (by decide) (by decide)⟩

/-- Memory sampler state (`memory.rs` lines 5-16), without the owned sysinfo
`System` handle: the OS reads that handle provides are passed to `update` as
an explicit reading. -/
structure MemoryInfo where
  total_memory : Nat
  used_memory : Nat
  memory_history : List ℚ
  total_swap : Nat
  used_swap : Nat
  swap_history : List ℚ
deriving DecidableEq

/-- One whole-snapshot read of the OS memory counters through sysinfo
(total/used/available memory and total/used swap, in bytes). -/
structure MemReading where
  total_memory : Nat
  used_memory : Nat
  available_memory : Nat
  total_swap : Nat
  used_swap : Nat
deriving DecidableEq

/-- `MemoryInfo::update` (`memory.rs` lines 42-73): store the raw readings,
compute the memory percent from available memory
(`total.saturating_sub(available) / total * 100`), compute the swap percent
with the `total_swap > 0` guard, and push both onto their histories. -/
def MemoryInfo.update (m : MemoryInfo) (r : MemReading) : MemoryInfo :=
  let actual_used : Nat := r.total_memory - r.available_memory
  let memory_percent : ℚ := (actual_used : ℚ) / (r.total_memory : ℚ) * 100
  let swap_percent : ℚ :=
    if 0 < r.total_swap then (r.used_swap : ℚ) / (r.total_swap : ℚ) * 100 else 0
  { total_memory := r.total_memory
    used_memory := r.used_memory
    total_swap := r.total_swap
    used_swap := r.used_swap
    memory_history := histPush m.memory_history memory_percent
    swap_history := histPush m.swap_history swap_percent }

/-- `MemoryInfo::current_memory_percent` (`memory.rs` lines 115-117):
computed from the raw `used_memory` field. -/
def MemoryInfo.current_memory_percent (m : MemoryInfo) : ℚ :=
  (m.used_memory : ℚ) / (m.total_memory : ℚ) * 100

/-- `MemoryInfo::current_swap_percent` (`memory.rs` lines 119-125). -/
def MemoryInfo.current_swap_percent (m : MemoryInfo) : ℚ :=
  if 0 < m.total_swap then (m.used_swap : ℚ) / (m.total_swap : ℚ) * 100 else 0

/-- C5: whenever `total_swap = 0` — regardless of `used_swap` — the state's
`current_swap_percent` is 0, and after an `update` whose reading also has
zero total swap, the value pushed onto the swap history and the percent
reported afterwards are 0: the guarded division never happens. -/
theorem swap_zero_guard_c5 (m : MemoryInfo) (r : MemReading)
    (hm : m.total_swap = 0) (hr : r.total_swap = 0) :
    m.current_swap_percent = 0 ∧
    (m.update r).current_swap_percent = 0 ∧
    (m.update r).swap_history.getLast? = some 0 := by
  refine ⟨?_, ?_, ?_⟩
  · simp [MemoryInfo.current_swap_percent, hm]
  · simp [MemoryInfo.current_swap_percent, MemoryInfo.update, hr]
  · simp [MemoryInfo.update, hr, histPush_getLast?]

theorem swap_zero_guard_c5_witness :
    ((⟨100, 30, [], 0, 7, []⟩ : MemoryInfo).total_swap = 0 ∧
      (⟨100, 30, 50, 0, 9⟩ : MemReading).total_swap = 0) ∧
    ((⟨100, 30, [], 0, 7, []⟩ : MemoryInfo).current_swap_percent = 0 ∧
      (MemoryInfo.update ⟨100, 30, [], 0, 7, []⟩ ⟨100, 30, 50, 0, 9⟩).current_swap_percent = 0 ∧
      (MemoryInfo.update ⟨100, 30, [], 0, 7, []⟩ ⟨100, 30, 50, 0, 9⟩).swap_history.getLast?
        = some 0) :=
  ⟨⟨rfl, rfl⟩, swap_zero_guard_c5 ⟨100, 30, [], 0, 7, []⟩ ⟨100, 30, 50, 0, 9⟩ rfl rfl⟩

/-- C4 refutation: after a refresh that read total=100, used=30,
available=50 (bytes), the value pushed onto the memory history is the
available-based percent `(100 - 50) / 100 * 100 = 50`, but
`current_memory_percent` returns the raw-used percent `30 / 100 * 100 = 30`:
the two formulas disagree, so the available-based formula is not the single
source of truth. -/
theorem memory_percent_formula_c4 :
    (MemoryInfo.update ⟨100, 30, [], 0, 0, []⟩ ⟨100, 30, 50, 0, 0⟩).memory_history
      = [((100 : ℚ) - 50) / 100 * 100] ∧
    ((100 : ℚ) - 50) / 100 * 100 = 50 ∧
    (MemoryInfo.update ⟨100, 30, [], 0, 0, []⟩ ⟨100, 30, 50, 0, 0⟩).current_memory_percent
      = 30 ∧
    (30 : ℚ) ≠ 50 := by
  refine ⟨?_, by norm_num, ?_, by norm_num⟩
  · simp [MemoryInfo.update, histPush]
    norm_num
  · simp [MemoryInfo.current_memory_percent, MemoryInfo.update]

/-- The shared mutable state (`tui.rs` lines 27-32), the single resource
behind the mutex. -/
structure AppState where
  cpu_info : CpuInfo
  processes : List Process
  selected_process : Nat
  scroll_offset : Nat
deriving DecidableEq

/-- `AppState::update_processes` (`tui.rs` lines 47-51) with the OS process
snapshot abstracted to a parameter: the process list is replaced wholesale
and sorted memory-descending; no other field — in particular neither
`selected_process` nor `scroll_offset` — is written. -/
def AppState.update_processes (s : AppState) (fresh : List Process) : AppState :=
  { s with processes := sort_by_memory fresh }

/-- C1 refutation: a refresh that shrinks the process list from 10 entries
to 3 leaves `selected_process = 5`, outside `[0, 2]` — `update_processes`
performs no re-clamp of the cursor, so the claimed invariant fails right
after this mutation. -/
theorem refresh_no_reclamp_c1 :
    ((AppState.update_processes
        ⟨⟨0, [], []⟩, List.replicate 10 ⟨0, "x", 0, 0, ProcStatus.running, none⟩, 5, 1⟩
        [⟨1, "a", 0, 5, ProcStatus.running, none⟩,
         ⟨2, "b", 0, 3, ProcStatus.sleeping, none⟩,
         ⟨3, "c", 0, 1, ProcStatus.idle, none⟩]).processes.length = 3) ∧
    ((AppState.update_processes
        ⟨⟨0, [], []⟩, List.replicate 10 ⟨0, "x", 0, 0, ProcStatus.running, none⟩, 5, 1⟩
        [⟨1, "a", 0, 5, ProcStatus.running, none⟩,
         ⟨2, "b", 0, 3, ProcStatus.sleeping, none⟩,
         ⟨3, "c", 0, 1, ProcStatus.idle, none⟩]).selected_process = 5) ∧
    ¬ ((AppState.update_processes
        ⟨⟨0, [], []⟩, List.replicate 10 ⟨0, "x", 0, 0, ProcStatus.running, none⟩, 5, 1⟩
        [⟨1, "a", 0, 5, ProcStatus.running, none⟩,
         ⟨2, "b", 0, 3, ProcStatus.sleeping, none⟩,
         ⟨3, "c", 0, 1, ProcStatus.idle, none⟩]).selected_process + 1
      ≤ (AppState.update_processes
        ⟨⟨0, [], []⟩, List.replicate 10 ⟨0, "x", 0, 0, ProcStatus.running, none⟩, 5, 1⟩
        [⟨1, "a", 0, 5, ProcStatus.running, none⟩,
         ⟨2, "b", 0, 3, ProcStatus.sleeping, none⟩,
         ⟨3, "c", 0, 1, ProcStatus.idle, none⟩]).processes.length) := by
  decide

/-- The scroll handling of `render_process_section` (`tui.rs` lines
340-349): first `scroll_offset.min(processes.len().saturating_sub(max_items))`,
then the local offset is moved so that the — unmodified — selection index
falls inside the window. -/
def renderScroll (len maxItems selected scroll : Nat) : Nat :=
  let scroll1 := min scroll (len - maxItems)
  if selected < scroll1 then selected
  else if selected ≥ scroll1 + maxItems then selected - maxItems + 1
  else scroll1

/-- The resize/re-render transition as the program actually performs it: no
code path writes `selected_process` when the list length or the window
height changes; only the displayed scroll offset is recomputed. -/
def renderCursor (len maxItems : Nat) (c : Cursor) : Cursor :=
  ⟨c.selected, renderScroll len maxItems c.selected c.scroll_offset⟩

/-- C8 refutation: from (selected=5, scroll=1, length=10, height=5), the
transition to length 3 leaves the selection at 5 — it is never clamped to
`length'.saturating_sub(1) = 2` — and the recomputed offset is 1, not 0,
because the adjustment chases the stale out-of-range selection. -/
theorem resize_no_selected_clamp_c8 :
    renderCursor 3 5 ⟨5, 1⟩ = ⟨5, 1⟩ ∧
    (renderCursor 3 5 ⟨5, 1⟩).selected ≠ 2 ∧
    (renderCursor 3 5 ⟨5, 1⟩).scroll_offset ≠ 0 := by
  decide

/-- Atomic steps of the background sampler's CPU refresh, used to model
where the settle delay falls relative to the critical section. -/
inductive SamplerAction where
  | lockAcquire
  | settleSleep
  | counterRead
  | stateSwap
  | lockRelease
deriving DecidableEq

/-- The CPU branch of the background sampler loop (`tui.rs` lines 83-87):
the mutex is locked, then `state.cpu_info.update()` runs entirely inside the
critical section, and `CpuInfo::update` (`cpu.rs` lines 80-104) first sleeps
the 250 ms settle interval (`cpu.rs` line 84), then reads the counters and
swaps the values into the shared state; the guard drops at the end of the
block. -/
def cpuRefreshTrace : List SamplerAction :=
  [SamplerAction.lockAcquire, SamplerAction.settleSleep,
    SamplerAction.counterRead, SamplerAction.stateSwap,
    SamplerAction.lockRelease]

/-- Whether action `a` ever occurs while the exclusive lock is held in
trace `t` (lock depth counted left to right). -/
def occursUnderLock (t : List SamplerAction) (a : SamplerAction) : Bool :=
  (t.foldl
    (fun st act =>
      match act with
      | SamplerAction.lockAcquire => (st.1 + 1, st.2)
      | SamplerAction.lockRelease => (st.1 - 1, st.2)
      | _ => (st.1, st.2 || (act == a && decide (0 < st.1))))
    ((0, false) : Nat × Bool)).2

/-- C9 refutation: in the sampler's CPU refresh the settle sleep occurs
while the exclusive lock is held — the claim that the settle delay never
elapses under the lock (only the final counter swap being locked) is false
for every CPU refresh cycle. -/
theorem settle_under_lock_c9 :
    occursUnderLock cpuRefreshTrace SamplerAction.settleSleep = true := by
  decide
